import Mathlib

/-!
Verification of the command-dispatch core of `rosewm-dispatcher`.

UTF-8 byte strings (`std::u8string` / `std::u8string_view`) are modelled as
lists of natural numbers, one per byte.  All definitions are translated from
the C++ sources (`src/executables_database.cc`, `src/execution.cc`,
`src/ipc.cc`); each definition's doc comment names the function it embeds.
-/

/-- Byte strings (`std::u8string`): a list of byte values. -/
abbrev Str := List Nat

/-- Lexicographic order on byte strings, as used by `std::set<std::u8string>`
and `std::map` with `std::u8string` keys (element-wise unsigned byte
comparison, a proper initial segment comes first). -/
def strLt : Str → Str → Bool
  | _, [] => false
  | [], _ :: _ => true
  | a :: as, b :: bs => if a < b then true else if b < a then false else strLt as bs

/-- `a ≤ b` in the lexicographic order. -/
def strLe (a b : Str) : Bool := !(strLt b a)

/-- `pfxB p s = true` iff `p` is an initial segment of `s`
(`std::u8string::starts_with`). -/
def pfxB : Str → Str → Bool
  | [], _ => true
  | _ :: _, [] => false
  | a :: as, b :: bs => a == b && pfxB as bs

/-- `src/executables_database.cc`, `append_escaped`: append `input` to
`result`, writing a backslash (0x5c) before every space (0x20). -/
def append_escaped : Str → Str → Str
  | [], result => result
  | c :: rest, result =>
      if c = 32 then append_escaped rest (result ++ [92, c])
      else append_escaped rest (result ++ [c])

/-- `src/executables_database.cc`, `split_command_string` main loop.  State:
the `is_escaped` flag, the accumulated `command`, and the unread input.
Returns the command together with the remaining arguments view
(`input.substr(offset)`). -/
def split_go : Bool → Str → Str → Str × Str
  | _, command, [] => (command, [])
  | is_esc, command, c :: rest =>
      if !is_esc && c = 92 then split_go true command rest
      else if !is_esc && c = 32 then (command, rest)
      else split_go false (command ++ [c]) rest

/-- `src/executables_database.cc`, `split_command_string`: split a typed
string into the unescaped command token and the raw argument remainder. -/
def split_command_string (input : Str) : Str × Str := split_go false [] input

/-! ### Basic facts about the string utilities -/

theorem append_escaped_acc (s : Str) : ∀ r : Str,
    append_escaped s r = r ++ append_escaped s [] := by
  induction s with
  | nil => intro r; simp [append_escaped]
  | cons c rest ih =>
      intro r
      by_cases hc : c = 32
      · simp only [append_escaped, if_pos hc]
        rw [ih (r ++ [92, c]), ih ([] ++ [92, c])]
        simp
      · simp only [append_escaped, if_neg hc]
        rw [ih (r ++ [c]), ih ([] ++ [c])]
        simp

theorem split_go_escape (s : Str) (h : 92 ∉ s) : ∀ cmd : Str,
    split_go false cmd (append_escaped s []) = (cmd ++ s, []) := by
  induction s with
  | nil => intro cmd; simp [append_escaped, split_go]
  | cons c rest ih =>
      intro cmd
      have hc92 : c ≠ 92 := fun he => h (he ▸ List.mem_cons_self c rest)
      have hrest : 92 ∉ rest := fun hm => h (List.mem_cons_of_mem c hm)
      by_cases hc : c = 32
      · subst hc
        simp only [append_escaped, if_pos rfl, List.nil_append]
        rw [append_escaped_acc rest [92, 32]]
        simp only [split_go, List.append_eq]
        norm_num [split_go]
        rw [ih hrest (cmd ++ [32])]
        simp
      · simp only [append_escaped, if_neg hc, List.nil_append]
        rw [append_escaped_acc rest [c]]
        simp only [split_go]
        rw [if_neg (by simp [hc92]), if_neg (by simp [hc])]
        simp only [List.append_eq, List.nil_append]
        rw [ih hrest (cmd ++ [c])]
        simp

/-- C2 (amended): for every byte string `s` that contains no backslash,
splitting the escaped form of `s` recovers `s` as the command token with an
empty argument remainder; in particular the escaped form contains no byte
that the splitter treats as an unescaped space. -/
theorem escape_roundtrip (s : Str) (h : 92 ∉ s) :
    split_command_string (append_escaped s []) = (s, []) := by
  unfold split_command_string
  rw [split_go_escape s h []]
  simp

/-- C2 witness: the round trip at the concrete string "a b"
(bytes `[97, 32, 98]`). -/
theorem escape_roundtrip_witness :
    92 ∉ ([97, 32, 98] : Str) ∧
      split_command_string (append_escaped [97, 32, 98] []) = ([97, 32, 98], []) :=
  ⟨by decide, escape_roundtrip [97, 32, 98] (by decide)⟩

/-- C2 counterexample: for the string consisting of a single backslash
(byte `[92]`), the round trip fails — the splitter consumes the backslash as
an escape character, so `unescape (escape s) ≠ s` for `s = [92]`. -/
theorem escape_roundtrip_counterexample :
    split_command_string (append_escaped [92] []) ≠ ([92], []) := by
  decide

/-! ### Lexicographic order toolkit -/

theorem strLt_irrefl (a : Str) : strLt a a = false := by
  induction a with
  | nil => rfl
  | cons x xs ih => simp [strLt, ih]

theorem strLt_asymm : ∀ {a b : Str}, strLt a b = true → strLt b a = false
  | [], [], h => by simp [strLt] at h
  | [], _ :: _, _ => rfl
  | _ :: _, [], h => by simp [strLt] at h
  | a :: as, b :: bs, h => by
      by_cases hab : a < b
      · simp [strLt, hab, Nat.lt_asymm hab]
      · by_cases hba : b < a
        · simp [strLt, hab, hba] at h
        · have hrec := strLt_asymm (a := as) (b := bs) (by simpa [strLt, hab, hba] using h)
          simp [strLt, hab, hba, hrec]

theorem strLt_append_left : ∀ (r a b : Str), strLt (r ++ a) (r ++ b) = strLt a b
  | [], _, _ => rfl
  | x :: r, a, b => by simp [strLt, strLt_append_left r a b]

theorem pfxB_append_left : ∀ (r a b : Str), pfxB (r ++ a) (r ++ b) = pfxB a b
  | [], _, _ => rfl
  | x :: r, a, b => by simp [pfxB, pfxB_append_left r a b]

theorem pfxB_exists : ∀ {p s : Str}, pfxB p s = true ↔ ∃ u, s = p ++ u
  | [], s => by simp [pfxB]
  | a :: as, [] => by
      simp only [pfxB, Bool.false_eq_true, false_iff]
      rintro ⟨u, hu⟩
      exact absurd hu (by simp)
  | a :: as, b :: bs => by
      simp only [pfxB, Bool.and_eq_true, beq_iff_eq]
      constructor
      · rintro ⟨rfl, h⟩
        obtain ⟨u, rfl⟩ := pfxB_exists.mp h
        exact ⟨u, rfl⟩
      · rintro ⟨u, hu⟩
        rw [List.cons_append] at hu
        cases hu
        exact ⟨rfl, pfxB_exists.mpr ⟨u, rfl⟩⟩

theorem pfxB_refl (p : Str) : pfxB p p = true :=
  pfxB_exists.mpr ⟨[], by simp⟩

theorem pfxB_self_append (p u : Str) : pfxB p (p ++ u) = true :=
  pfxB_exists.mpr ⟨u, rfl⟩

theorem pfxB_trans {a b c : Str} (h1 : pfxB a b = true) (h2 : pfxB b c = true) :
    pfxB a c = true := by
  obtain ⟨u, rfl⟩ := pfxB_exists.mp h1
  obtain ⟨v, rfl⟩ := pfxB_exists.mp h2
  exact pfxB_exists.mpr ⟨u ++ v, by simp⟩

theorem pfxB_length_le {p s : Str} (h : pfxB p s = true) : p.length ≤ s.length := by
  obtain ⟨u, rfl⟩ := pfxB_exists.mp h
  simp

theorem strLt_nil_cons (b : Nat) (bs : Str) : strLt [] (b :: bs) = true := rfl

theorem strLt_nil_right (a : Str) : strLt a [] = false := by cases a <;> rfl

theorem pfxB_le {p s : Str} (h : pfxB p s = true) : strLt s p = false := by
  obtain ⟨u, rfl⟩ := pfxB_exists.mp h
  have := strLt_append_left p u []
  simpa [strLt_nil_right] using this

theorem strLt_of_pfx_ne {p s : Str} (h : pfxB p s = true) (hne : s ≠ p) :
    strLt p s = true := by
  obtain ⟨u, rfl⟩ := pfxB_exists.mp h
  cases u with
  | nil => exact absurd (by simp) hne
  | cons x xs =>
      have := strLt_append_left p [] (x :: xs)
      simpa [strLt_nil_cons] using this

theorem notpfx_between : ∀ {r m e : Str}, pfxB r m = true → strLt e r = false →
    pfxB r e = false → strLt m e = true
  | [], m, e, _, _, h3 => by simp [pfxB] at h3
  | a :: r, m, [], _, h2, _ => by simp [strLt] at h2
  | a :: r, m, b :: e, h1, h2, h3 => by
      obtain ⟨u, rfl⟩ := pfxB_exists.mp h1
      by_cases hab : a < b
      · simp [List.cons_append, strLt, hab]
      · by_cases hba : b < a
        · simp [strLt, hba] at h2
        · have heq : a = b := Nat.le_antisymm (Nat.le_of_not_lt hba) (Nat.le_of_not_lt hab)
          subst heq
          have h2' : strLt e r = false := by simpa [strLt] using h2
          have h3' : pfxB r e = false := by simpa [pfxB] using h3
          have hrec := notpfx_between (m := r ++ u) (pfxB_self_append r u) h2' h3'
          simpa [List.cons_append, strLt] using hrec

/-! ### `lower_bound` on a sorted key sequence -/

/-- `lower_bound` of an ordered associative container, expressed on the sorted
list of its keys: the first element that is not less than `k`
(`std::set::lower_bound` / `std::map::lower_bound`). -/
def lowerBound (l : List Str) (k : Str) : Option Str := l.find? (fun e => strLe k e)

theorem lowerBound_mem {l : List Str} {k j : Str} (h : lowerBound l k = some j) :
    j ∈ l := List.mem_of_find?_eq_some h

theorem lowerBound_ge {l : List Str} {k j : Str} (h : lowerBound l k = some j) :
    strLt j k = false := by
  have := List.find?_some h
  simpa [strLe] using this

/-- On a sorted key list, if some key has `r` as a prefix then `lower_bound r`
is the first such key. -/
theorem lowerBound_head_filter :
    ∀ {l : List Str}, List.Pairwise (fun a b => strLt a b = true) l →
      ∀ {r : Str}, l.filter (fun e => pfxB r e) ≠ [] →
        lowerBound l r = (l.filter (fun e => pfxB r e)).head?
  | [], _, r, h => by simp at h
  | e :: tl, hs, r, h => by
      obtain ⟨hetl, hstl⟩ := List.pairwise_cons.mp hs
      by_cases pe : pfxB r e = true
      · have hle : strLe r e = true := by
          simp [strLe, pfxB_le pe]
        unfold lowerBound
        rw [List.find?_cons_of_pos _ hle]
        simp [List.filter_cons, pe]
      · have hfe : (e :: tl).filter (fun x => pfxB r x) = tl.filter (fun x => pfxB r x) := by
          simp [List.filter_cons, pe]
        rw [hfe] at h
        obtain ⟨m, hmmem⟩ : ∃ m, m ∈ tl.filter (fun x => pfxB r x) :=
          ⟨_, List.head_mem h⟩
        have hm_tl : m ∈ tl := (List.mem_filter.mp hmmem).1
        have hm_pfx : pfxB r m = true := (List.mem_filter.mp hmmem).2
        have her : strLt e r = true := by
          by_contra hc
          have hc' : strLt e r = false := by
            cases hx : strLt e r
            · rfl
            · exact absurd hx hc
          have h1 : strLt m e = true :=
            notpfx_between hm_pfx hc' (by simpa using pe)
          have h2 : strLt e m = true := hetl m hm_tl
          have := strLt_asymm h2
          rw [this] at h1
          exact Bool.false_ne_true h1
        have hnle : ¬ strLe r e = true := by
          simp [strLe, her]
        unfold lowerBound
        rw [List.find?_cons_of_neg _ hnle]
        have := lowerBound_head_filter hstl h
        unfold lowerBound at this
        rw [this, hfe]

/-- On a sorted key list, `lower_bound k` returns an element between `k` and
any member that is `≥ k`. -/
theorem lowerBound_le_mem :
    ∀ {l : List Str}, List.Pairwise (fun a b => strLt a b = true) l →
      ∀ {m k : Str}, m ∈ l → strLt m k = false →
        ∃ j, lowerBound l k = some j ∧ strLt j k = false ∧ strLt m j = false
  | [], _, m, k, hm, _ => absurd hm (List.not_mem_nil m)
  | e :: tl, hs, m, k, hm, hmk => by
      obtain ⟨hetl, hstl⟩ := List.pairwise_cons.mp hs
      by_cases pe : strLe k e = true
      · refine ⟨e, ?_, by simpa [strLe] using pe, ?_⟩
        · unfold lowerBound
          rw [List.find?_cons_of_pos _ pe]
        · rcases List.mem_cons.mp hm with rfl | hmtl
          · exact strLt_irrefl _
          · exact strLt_asymm (hetl m hmtl)
      · have hme : m ≠ e := by
          rintro rfl
          exact pe (by simpa [strLe] using hmk)
        have hmtl : m ∈ tl := (List.mem_cons.mp hm).resolve_left hme
        obtain ⟨j, hj1, hj2, hj3⟩ := lowerBound_le_mem hstl hmtl hmk
        refine ⟨j, ?_, hj2, hj3⟩
        unfold lowerBound
        rw [List.find?_cons_of_neg _ pe]
        exact hj1

/-! ### Longest common prefix (specification side) -/

/-- Longest common prefix of two byte strings. -/
def lcp2 : Str → Str → Str
  | a :: as, b :: bs => if a = b then a :: lcp2 as bs else []
  | _, _ => []

/-- Brute-force longest common prefix of a list of strings (the first element
seeds the fold; the result is meaningful for non-empty lists). -/
def lcpAll : List Str → Str
  | [] => []
  | m :: ms => ms.foldl lcp2 m

theorem lcp2_pfx_left : ∀ (a b : Str), pfxB (lcp2 a b) a = true
  | [], _ => rfl
  | _ :: _, [] => rfl
  | a :: as, b :: bs => by
      by_cases hab : a = b
      · simp [lcp2, hab, pfxB, lcp2_pfx_left as bs]
      · simp [lcp2, hab, pfxB]

theorem lcp2_pfx_right : ∀ (a b : Str), pfxB (lcp2 a b) b = true
  | [], _ => rfl
  | _ :: _, [] => rfl
  | a :: as, b :: bs => by
      by_cases hab : a = b
      · subst hab
        simp [lcp2, pfxB, lcp2_pfx_right as bs]
      · simp [lcp2, hab, pfxB]

theorem lcp2_greatest : ∀ {s a b : Str}, pfxB s a = true → pfxB s b = true →
    pfxB s (lcp2 a b) = true
  | [], _, _, _, _ => rfl
  | x :: s, a, b, h1, h2 => by
      cases a with
      | nil => simp [pfxB] at h1
      | cons a0 as =>
          cases b with
          | nil => simp [pfxB] at h2
          | cons b0 bs =>
              obtain ⟨rfl, h1'⟩ := by simpa [pfxB] using h1
              obtain ⟨rfl, h2'⟩ := by simpa [pfxB] using h2
              simp [lcp2, pfxB, lcp2_greatest h1' h2']

theorem lcp_foldl_pfx : ∀ (ms : List Str) (acc : Str),
    pfxB (ms.foldl lcp2 acc) acc = true ∧
      ∀ x ∈ ms, pfxB (ms.foldl lcp2 acc) x = true
  | [], acc => ⟨pfxB_refl acc, by simp⟩
  | b :: ms, acc => by
      obtain ⟨h1, h2⟩ := lcp_foldl_pfx ms (lcp2 acc b)
      refine ⟨pfxB_trans h1 (lcp2_pfx_left acc b), ?_⟩
      intro x hx
      rcases List.mem_cons.mp hx with rfl | hx'
      · exact pfxB_trans h1 (lcp2_pfx_right acc x)
      · exact h2 x hx'

theorem lcp_foldl_greatest : ∀ (ms : List Str) (acc s : Str),
    pfxB s acc = true → (∀ x ∈ ms, pfxB s x = true) →
      pfxB s (ms.foldl lcp2 acc) = true
  | [], acc, s, h1, _ => h1
  | b :: ms, acc, s, h1, h2 => by
      exact lcp_foldl_greatest ms (lcp2 acc b) s
        (lcp2_greatest h1 (h2 b (List.mem_cons_self b ms)))
        (fun x hx => h2 x (List.mem_cons_of_mem b hx))

theorem lcpAll_pfx {M : List Str} (hM : M ≠ []) :
    ∀ x ∈ M, pfxB (lcpAll M) x = true := by
  cases M with
  | nil => exact absurd rfl hM
  | cons m ms =>
      intro x hx
      rcases List.mem_cons.mp hx with rfl | hx'
      · exact (lcp_foldl_pfx ms x).1
      · exact (lcp_foldl_pfx ms m).2 x hx'

theorem lcpAll_greatest {M : List Str} {s : Str} (hM : M ≠ [])
    (h : ∀ x ∈ M, pfxB s x = true) : pfxB s (lcpAll M) = true := by
  cases M with
  | nil => exact absurd rfl hM
  | cons m ms =>
      exact lcp_foldl_greatest ms m s (h m (List.mem_cons_self m ms))
        (fun x hx => h x (List.mem_cons_of_mem m hx))

/-! ### The executables database and its autocompletion loop -/

/-- The two containers of `rose::executables_database`
(`src/executables_database.cc`): `paths_` is the sorted set of full paths of
executable files; `files_` is the sorted map from base file name to the
directory that first contained it.  Both are modelled as lists in container
order. -/
structure ExecDb where
  paths : List Str
  files : List (Str × Str)

/-- The completion loop of `executables_database::autocomplete`
(`src/executables_database.cc` lines 173-209), acting on the sorted key
sequence of the chosen container.  `r` is the current sequence (`result`);
each iteration probes the container with `lower_bound`.  The `(c + 1) % 256`
models the `char8_t` increment `next_character + 1` (unsigned byte
arithmetic).  `fuel` is a bound on the number of iterations, supplied large
enough by the caller; the C++ loop terminates for the same reason the fuel
suffices. -/
def acLoop (keys : List Str) : Nat → Str → Str
  | 0, r => r
  | fuel + 1, r =>
      match lowerBound keys r with
      | none => r
      | some i =>
          if pfxB r i = false then r
          else if i = r then r
          else
            match lowerBound keys (r ++ [(i.getD r.length 0 + 1) % 256]) with
            | none => acLoop keys fuel (r ++ [i.getD r.length 0])
            | some j =>
                if pfxB r j = false then acLoop keys fuel (r ++ [i.getD r.length 0])
                else if i.getD r.length 0 = j.getD r.length 0 then
                  acLoop keys fuel (r ++ [i.getD r.length 0])
                else r

/-- Length of the longest key; used to bound the completion loop's fuel. -/
def maxLen (l : List Str) : Nat := l.foldr (fun e a => max e.length a) 0

/-- `executables_database::autocomplete` (`src/executables_database.cc` lines
145-227): split the input, pick the container (`paths_` when the input starts
with '/', else the keys of `files_`), run the completion loop starting from
the command token, strip the token prefix, and escape the suffix. -/
def autocomplete (db : ExecDb) (input : Str) : Str :=
  if input = [] then []
  else
    let keys := if input.head? = some 47 then db.paths else db.files.map (fun p => p.1)
    let t := (split_command_string input).1
    let r := acLoop keys (maxLen keys + 1) t
    append_escaped (List.drop t.length r) []

theorem strLt_cons (a b : Nat) (as bs : Str) :
    strLt (a :: as) (b :: bs) =
      if a < b then true else if b < a then false else strLt as bs := rfl

theorem getD_append_cons (r : Str) (x : Nat) (u : Str) :
    (r ++ x :: u).getD r.length 0 = x := by
  rw [List.getD_append_right _ _ _ _ (le_refl r.length)]
  simp

theorem le_maxLen : ∀ {l : List Str} {e : Str}, e ∈ l → e.length ≤ maxLen l
  | e' :: tl, e, h => by
      rcases List.mem_cons.mp h with rfl | h'
      · simp [maxLen, List.foldr]
      · have := le_maxLen h'
        simp only [maxLen, List.foldr] at *
        omega

/-- A key `j` lying between `L ++ [x]` and a key with prefix `L` also has
prefix `L`. -/
theorem pfx_of_between : ∀ {L : Str} {x : Nat} {j m : Str},
    strLt j (L ++ [x]) = false → strLt m j = false → pfxB L m = true →
      pfxB L j = true
  | [], _, _, _, _, _, _ => rfl
  | a :: L, x, j, m, h1, h2, h3 => by
      cases j with
      | nil =>
          rw [List.cons_append] at h1
          exact absurd h1 (by simp [strLt_nil_cons])
      | cons b j' =>
          cases m with
          | nil => simp [pfxB] at h3
          | cons a' m' =>
              obtain ⟨heq, h3'⟩ : a = a' ∧ pfxB L m' = true := by
                simpa [pfxB] using h3
              subst heq
              rw [List.cons_append, strLt_cons] at h1
              rw [strLt_cons] at h2
              by_cases hba : b < a
              · rw [if_pos hba] at h1
                cases h1
              · by_cases hab : a < b
                · rw [if_neg hba, if_pos hab] at h2
                  cases h2
                · have hef : a = b :=
                    Nat.le_antisymm (Nat.le_of_not_lt hba) (Nat.le_of_not_lt hab)
                  subst hef
                  rw [if_neg hba, if_neg hab] at h1 h2
                  simp only [pfxB, beq_self_eq_true, Bool.true_and]
                  exact pfx_of_between h1 h2 h3'

/-- When no key has the token as a prefix, the completion loop stops at once
and returns the token. -/
theorem acLoop_nomatch (keys : List Str) (t : Str)
    (hM : keys.filter (fun e => pfxB t e) = []) (fuel : Nat) :
    acLoop keys (fuel + 1) t = t := by
  cases hlb : lowerBound keys t with
  | none => simp [acLoop, hlb]
  | some i =>
      have hi : i ∈ keys := lowerBound_mem hlb
      have hpi : pfxB t i = false := by
        cases hx : pfxB t i
        · rfl
        · exfalso
          have : i ∈ keys.filter (fun e => pfxB t e) := List.mem_filter.mpr ⟨hi, hx⟩
          rw [hM] at this
          exact List.not_mem_nil i this
      simp [acLoop, hlb, hpi]

/-- At the longest common prefix `L` of the matching keys, one iteration of
the completion loop stops and returns `L`: either the smallest matching key
equals `L`, or the probe detects a branch among the matches. -/
theorem acLoop_stop (keys : List Str) (t : Str) (M : List Str) (L : Str)
    (hs : List.Pairwise (fun a b => strLt a b = true) keys)
    (hb : ∀ e ∈ keys, ∀ x ∈ e, x < 256)
    (hMdef : keys.filter (fun e => pfxB t e) = M)
    (hLdef : lcpAll M = L)
    (hM : M ≠ []) (fuel : Nat) :
    acLoop keys (fuel + 1) L = L := by
  have hML : ∀ x ∈ M, pfxB L x = true := by
    rw [← hLdef]; exact lcpAll_pfx hM
  have hMkeys : ∀ x ∈ M, x ∈ keys := by
    intro x hx; rw [← hMdef] at hx; exact (List.mem_filter.mp hx).1
  have htM : ∀ x ∈ M, pfxB t x = true := by
    intro x hx; rw [← hMdef] at hx; exact (List.mem_filter.mp hx).2
  have htL : pfxB t L = true := by
    rw [← hLdef]; exact lcpAll_greatest hM htM
  have hMs : List.Pairwise (fun a b => strLt a b = true) M := by
    rw [← hMdef]; exact hs.filter _
  obtain ⟨m0, Mtl, hMc⟩ : ∃ m0 Mtl, M = m0 :: Mtl := by
    cases M with
    | nil => exact absurd rfl hM
    | cons a b => exact ⟨a, b, rfl⟩
  have hm0M : m0 ∈ M := by rw [hMc]; exact List.mem_cons_self _ _
  have hm0keys : m0 ∈ keys := hMkeys m0 hm0M
  have hm0L : pfxB L m0 = true := hML m0 hm0M
  have hm0min : ∀ x ∈ Mtl, strLt m0 x = true := by
    rw [hMc] at hMs; exact (List.pairwise_cons.mp hMs).1
  have hMr : keys.filter (fun e => pfxB L e) = M := by
    rw [← hMdef]
    apply List.filter_congr
    intro e he
    cases hpe : pfxB t e with
    | true =>
        have heM : e ∈ M := by
          rw [← hMdef]; exact List.mem_filter.mpr ⟨he, hpe⟩
        exact hML e heM
    | false =>
        cases hre : pfxB L e with
        | false => rfl
        | true => exact absurd (pfxB_trans htL hre) (by simp [hpe])
  have hlb : lowerBound keys L = some m0 := by
    have hne1 : keys.filter (fun e => pfxB L e) ≠ [] := by
      rw [hMr, hMc]; exact List.cons_ne_nil _ _
    rw [lowerBound_head_filter hs hne1, hMr, hMc]
    rfl
  have hLm0 : pfxB L m0 = true := hm0L
  by_cases hm0eq : m0 = L
  · simp [acLoop, hlb, hLm0, hm0eq]
  · -- the probe finds a key diverging from `m0` right after `L`
    obtain ⟨σ, hσ⟩ := pfxB_exists.mp hm0L
    obtain ⟨c0, σ', rfl⟩ : ∃ c0 σ', σ = c0 :: σ' := by
      cases σ with
      | nil => exact absurd (by simpa using hσ) hm0eq
      | cons a b => exact ⟨a, b, rfl⟩
    have hgetm0 : m0.getD L.length 0 = c0 := by
      rw [hσ]; exact getD_append_cons L c0 σ'
    have hex : ∃ m1, m1 ∈ M ∧ pfxB (L ++ [c0]) m1 = false := by
      by_contra hno
      push_neg at hno
      have hall : ∀ x ∈ M, pfxB (L ++ [c0]) x = true := by
        intro x hx
        cases hpx : pfxB (L ++ [c0]) x with
        | true => rfl
        | false => exact absurd hpx (hno x hx)
      have hgr := lcpAll_greatest hM hall
      rw [hLdef] at hgr
      have := pfxB_length_le hgr
      simp at this
    obtain ⟨m1, hm1M, hm1np⟩ := hex
    have hm1L : pfxB L m1 = true := hML m1 hm1M
    have hm1keys : m1 ∈ keys := hMkeys m1 hm1M
    obtain ⟨τ, hτ⟩ := pfxB_exists.mp hm1L
    have hm1neL : m1 ≠ L := by
      rintro rfl
      have h1 : strLt m1 m0 = true := strLt_of_pfx_ne hm0L hm0eq
      have hm1Mtl : m1 ∈ Mtl := by
        have hx := hm1M
        rw [hMc] at hx
        rcases List.mem_cons.mp hx with h | h
        · exact absurd h.symm hm0eq
        · exact h
      have h2 := hm0min m1 hm1Mtl
      rw [strLt_asymm h2] at h1
      exact Bool.false_ne_true h1
    obtain ⟨τ0, τ', rfl⟩ : ∃ τ0 τ', τ = τ0 :: τ' := by
      cases τ with
      | nil => exact absurd (by simpa using hτ) hm1neL
      | cons a b => exact ⟨a, b, rfl⟩
    have hτ0ne : τ0 ≠ c0 := by
      intro heq
      subst heq
      have hpp : pfxB (L ++ [τ0]) m1 = true := by
        rw [hτ]
        have hrec : L ++ τ0 :: τ' = (L ++ [τ0]) ++ τ' := by simp
        rw [hrec]
        exact pfxB_self_append _ _
      rw [hpp] at hm1np
      exact absurd hm1np (by simp)
    have hm1nem0 : m1 ≠ m0 := by
      intro h
      have e1 : m1.getD L.length 0 = τ0 := by rw [hτ]; exact getD_append_cons _ _ _
      have e2 : m1.getD L.length 0 = c0 := by rw [h]; exact hgetm0
      exact hτ0ne (by rw [← e1, e2])
    have hm1Mtl : m1 ∈ Mtl := by
      have hx := hm1M
      rw [hMc] at hx
      rcases List.mem_cons.mp hx with h | h
      · exact absurd h hm1nem0
      · exact h
    have hlt01 : strLt m0 m1 = true := hm0min m1 hm1Mtl
    have hστ : strLt (c0 :: σ') (τ0 :: τ') = true := by
      rw [hσ, hτ, strLt_append_left] at hlt01
      exact hlt01
    have hc0τ0 : c0 < τ0 := by
      rw [strLt_cons] at hστ
      by_cases h1 : c0 < τ0
      · exact h1
      · by_cases h2 : τ0 < c0
        · rw [if_neg h1, if_pos h2] at hστ
          cases hστ
        · exact absurd (Nat.le_antisymm (Nat.le_of_not_lt h1) (Nat.le_of_not_lt h2)) hτ0ne
    have hτ0b : τ0 < 256 := by
      apply hb m1 hm1keys
      rw [hτ]
      exact List.mem_append_right _ (List.mem_cons_self _ _)
    have hmod : (c0 + 1) % 256 = c0 + 1 := Nat.mod_eq_of_lt (by omega)
    have hm1ge : strLt m1 (L ++ [c0 + 1]) = false := by
      rw [hτ, strLt_append_left, strLt_cons]
      by_cases hx : c0 + 1 < τ0
      · rw [if_neg (by omega), if_pos hx]
      · have hxx : τ0 = c0 + 1 := by omega
        rw [if_neg (by omega), if_neg (by omega)]
        exact strLt_nil_right τ'
    obtain ⟨j, hj1, hj2, hj3⟩ := lowerBound_le_mem hs hm1keys hm1ge
    have hLj : pfxB L j = true := pfx_of_between hj2 hj3 hm1L
    have hjneL : j ≠ L := by
      rintro rfl
      have hLlt : strLt j (j ++ [c0 + 1]) = true := by
        have h0 := strLt_append_left j [] [c0 + 1]
        simpa using h0
      rw [hLlt] at hj2
      exact absurd hj2 (by simp)
    obtain ⟨ρ, hρ⟩ := pfxB_exists.mp hLj
    obtain ⟨ρ0, ρ', rfl⟩ : ∃ ρ0 ρ', ρ = ρ0 :: ρ' := by
      cases ρ with
      | nil => exact absurd (by simpa using hρ) hjneL
      | cons a b => exact ⟨a, b, rfl⟩
    have hgetj : j.getD L.length 0 = ρ0 := by rw [hρ]; exact getD_append_cons _ _ _
    have hcond : ¬ (c0 = List.getD j (List.length L) 0) := by
      rw [hgetj]
      intro heq
      have hjlt : strLt j (L ++ [c0 + 1]) = true := by
        rw [hρ, ← heq, strLt_append_left, strLt_cons]
        rw [if_pos (by omega : c0 < c0 + 1)]
      rw [hjlt] at hj2
      exact absurd hj2 (by simp)
    simp only [acLoop, hlb]
    rw [if_neg (by simp [hLm0]), if_neg hm0eq]
    simp only [hgetm0, hmod]
    rw [hj1]
    simp only [hLj]
    rw [if_neg (show ¬ (true = false) by simp), if_neg hcond]

/-- Core correctness of the completion loop: on a sorted sequence of byte
strings, starting from any sequence `r` between the token `t` and the longest
common prefix `L` of the keys extending `t`, the loop grows `r` byte by byte
along `L` and returns exactly `L`. -/
theorem acLoop_lcp (keys : List Str) (t : Str) (M : List Str) (L : Str)
    (hs : List.Pairwise (fun a b => strLt a b = true) keys)
    (hb : ∀ e ∈ keys, ∀ x ∈ e, x < 256)
    (hMdef : keys.filter (fun e => pfxB t e) = M)
    (hLdef : lcpAll M = L)
    (hM : M ≠ []) :
    ∀ fuel r, pfxB t r = true → pfxB r L = true → L.length - r.length < fuel →
      acLoop keys fuel r = L := by
  have hML : ∀ x ∈ M, pfxB L x = true := by
    rw [← hLdef]; exact lcpAll_pfx hM
  have hMkeys : ∀ x ∈ M, x ∈ keys := by
    intro x hx; rw [← hMdef] at hx; exact (List.mem_filter.mp hx).1
  have hMs : List.Pairwise (fun a b => strLt a b = true) M := by
    rw [← hMdef]; exact hs.filter _
  obtain ⟨m0, Mtl, hMc⟩ : ∃ m0 Mtl, M = m0 :: Mtl := by
    cases M with
    | nil => exact absurd rfl hM
    | cons a b => exact ⟨a, b, rfl⟩
  have hm0M : m0 ∈ M := by rw [hMc]; exact List.mem_cons_self _ _
  have hm0L : pfxB L m0 = true := hML m0 hm0M
  intro fuel
  induction fuel with
  | zero =>
      intro r _ _ h3
      exact absurd h3 (Nat.not_lt_zero _)
  | succ fuel ih =>
      intro r hr1 hr2 hfl
      by_cases hrL : r = L
      · rw [hrL]
        exact acLoop_stop keys t M L hs hb hMdef hLdef hM fuel
      · -- r is a proper initial segment of L: the loop appends `L`'s next byte
        have hrm0 : pfxB r m0 = true := pfxB_trans hr2 hm0L
        have hMr : keys.filter (fun e => pfxB r e) = M := by
          rw [← hMdef]
          apply List.filter_congr
          intro e he
          cases hpe : pfxB t e with
          | true =>
              have heM : e ∈ M := by
                rw [← hMdef]; exact List.mem_filter.mpr ⟨he, hpe⟩
              exact pfxB_trans hr2 (hML e heM)
          | false =>
              cases hre : pfxB r e with
              | false => rfl
              | true => exact absurd (pfxB_trans hr1 hre) (by simp [hpe])
        have hlb : lowerBound keys r = some m0 := by
          have hne1 : keys.filter (fun e => pfxB r e) ≠ [] := by
            rw [hMr, hMc]; exact List.cons_ne_nil _ _
          rw [lowerBound_head_filter hs hne1, hMr, hMc]
          rfl
        obtain ⟨δ, hδ⟩ := pfxB_exists.mp hr2
        obtain ⟨d0, δ', rfl⟩ : ∃ d0 δ', δ = d0 :: δ' := by
          cases δ with
          | nil => exact absurd (by simpa using hδ.symm) hrL
          | cons a b => exact ⟨a, b, rfl⟩
        obtain ⟨σ, hσ⟩ := pfxB_exists.mp hm0L
        have hm0dec : m0 = r ++ d0 :: (δ' ++ σ) := by rw [hσ, hδ]; simp
        have hgetm0 : m0.getD r.length 0 = d0 := by
          rw [hm0dec]; exact getD_append_cons _ _ _
        have hm0ner : m0 ≠ r := by
          intro h
          have hlen := congrArg List.length h
          rw [hm0dec] at hlen
          simp at hlen
        have hstep : acLoop keys (fuel + 1) r = acLoop keys fuel (r ++ [d0]) := by
          simp only [acLoop, hlb]
          rw [if_neg (by simp [hrm0]), if_neg hm0ner]
          simp only [hgetm0]
          cases hjlb : lowerBound keys (r ++ [(d0 + 1) % 256]) with
          | none => rfl
          | some j =>
              by_cases hrj : pfxB r j = true
              · have hjM : j ∈ M := by
                  rw [← hMr]
                  exact List.mem_filter.mpr ⟨lowerBound_mem hjlb, hrj⟩
                have hLj := hML j hjM
                obtain ⟨w, hw⟩ := pfxB_exists.mp hLj
                have hjdec : j = r ++ d0 :: (δ' ++ w) := by rw [hw, hδ]; simp
                have hgetj : j.getD r.length 0 = d0 := by
                  rw [hjdec]; exact getD_append_cons _ _ _
                show (if pfxB r j = false then acLoop keys fuel (r ++ [d0])
                    else if d0 = List.getD j (List.length r) 0 then
                      acLoop keys fuel (r ++ [d0])
                    else r) = acLoop keys fuel (r ++ [d0])
                rw [if_neg (by simp [hrj]), if_pos hgetj.symm]
              · have hrj' : pfxB r j = false := by
                  cases hx : pfxB r j
                  · rfl
                  · exact absurd hx hrj
                show (if pfxB r j = false then acLoop keys fuel (r ++ [d0])
                    else if d0 = List.getD j (List.length r) 0 then
                      acLoop keys fuel (r ++ [d0])
                    else r) = acLoop keys fuel (r ++ [d0])
                rw [if_pos hrj']
        rw [hstep]
        apply ih (r ++ [d0]) (pfxB_trans hr1 (pfxB_self_append r [d0]))
        · rw [hδ]
          have hra : r ++ d0 :: δ' = (r ++ [d0]) ++ δ' := by simp
          rw [hra]
          exact pfxB_self_append _ _
        · have hL1 : L.length = r.length + 1 + δ'.length := by
            rw [hδ]; simp; omega
          simp only [List.length_append, List.length_cons, List.length_nil]
          omega

theorem append_escaped_nil : ∀ {u : Str}, append_escaped u [] = [] → u = [] := by
  intro u h
  cases u with
  | nil => rfl
  | cons c rest =>
      exfalso
      by_cases hc : c = 32
      · rw [append_escaped, if_pos hc, List.nil_append, append_escaped_acc] at h
        simp at h
      · rw [append_escaped, if_neg hc, List.nil_append, append_escaped_acc] at h
        simp at h

theorem append_escaped_eq_a : ∀ {u : Str}, append_escaped u [] = [97] → u = [97] := by
  intro u h
  cases u with
  | nil => exact absurd h (by simp [append_escaped])
  | cons c rest =>
      by_cases hc : c = 32
      · rw [append_escaped, if_pos hc, List.nil_append, append_escaped_acc] at h
        simp at h
      · rw [append_escaped, if_neg hc, List.nil_append, append_escaped_acc] at h
        obtain ⟨hc97, hrest⟩ : c = 97 ∧ append_escaped rest [] = [] := by
          rw [List.cons_append] at h
          have := List.cons.inj h
          simpa using this
        rw [hc97, append_escaped_nil hrest]

/-- C1 (amended): for every database whose chosen key sequence is sorted and
consists of byte strings, and every non-empty input, `autocomplete` splits
off the command token (unescaping backslash-space), selects `paths_` when
the input starts with '/' and the keys of `files_` otherwise, and returns the
escaped suffix, beyond the token, of the brute-force longest common prefix of
the keys that have the token as a prefix; the suffix is empty when no key has
the token as a prefix. -/
theorem autocomplete_lcp (db : ExecDb) (input : Str) (keys : List Str) (t : Str)
    (hkeys : keys = if input.head? = some 47 then db.paths
      else db.files.map (fun p => p.1))
    (ht : t = (split_command_string input).1)
    (hne : input ≠ [])
    (hs : List.Pairwise (fun a b => strLt a b = true) keys)
    (hb : ∀ e ∈ keys, ∀ x ∈ e, x < 256) :
    autocomplete db input =
      append_escaped (List.drop t.length
        (if keys.filter (fun e => pfxB t e) = [] then t
         else lcpAll (keys.filter (fun e => pfxB t e)))) [] := by
  unfold autocomplete
  rw [if_neg hne]
  show append_escaped
      (List.drop (split_command_string input).1.length
        (acLoop (if input.head? = some 47 then db.paths
            else db.files.map (fun p => p.1))
          (maxLen (if input.head? = some 47 then db.paths
            else db.files.map (fun p => p.1)) + 1)
          (split_command_string input).1)) [] = _
  rw [← hkeys, ← ht]
  by_cases hM : keys.filter (fun e => pfxB t e) = []
  · rw [if_pos hM, acLoop_nomatch keys t hM (maxLen keys)]
  · rw [if_neg hM]
    have htL : pfxB t (lcpAll (keys.filter (fun e => pfxB t e))) = true :=
      lcpAll_greatest hM (fun x hx => (List.mem_filter.mp hx).2)
    obtain ⟨m, hmf⟩ : ∃ m, m ∈ keys.filter (fun e => pfxB t e) :=
      ⟨_, List.head_mem hM⟩
    have hLm := lcpAll_pfx hM m hmf
    have hlen : (lcpAll (keys.filter (fun e => pfxB t e))).length ≤ maxLen keys :=
      le_trans (pfxB_length_le hLm) (le_maxLen (List.mem_filter.mp hmf).1)
    rw [acLoop_lcp keys t _ _ hs hb rfl rfl hM (maxLen keys + 1) t (pfxB_refl t)
      htL (by omega)]

/-- C1 witness: in the database with names `"ca"` and `"cat"` (both mapped to
directory `"/b"`), typing `"c"` completes to the suffix `"a"` — the longest
common prefix of the matches `{"ca", "cat"}` is `"ca"`. -/
theorem autocomplete_lcp_witness :
    autocomplete ⟨[], [([99, 97], [47, 98]), ([99, 97, 116], [47, 98])]⟩ [99] =
      append_escaped (List.drop (List.length [99])
        (if ([[99, 97], [99, 97, 116]] : List Str).filter
            (fun e => pfxB [99] e) = [] then [99]
         else lcpAll (([[99, 97], [99, 97, 116]] : List Str).filter
            (fun e => pfxB [99] e)))) [] :=
  autocomplete_lcp ⟨[], [([99, 97], [47, 98]), ([99, 97, 116], [47, 98])]⟩ [99]
    [[99, 97], [99, 97, 116]] [99] (by decide) (by decide) (by decide)
    (by decide) (by decide)

/-- C1 counterexample: with names `{"ca", "cat"}` and typed input `"c"`, the
code's completion extends to `S = "ca"` (suffix `"a"`), but `"ca"` is itself
an existing entry and not the only match, so no string `S` satisfying the
claim's side condition ("`S` is not itself an exact existing entry unless it
is the only match") yields the code's output. -/
theorem autocomplete_claim_counterexample :
    ¬ ∃ S : Str,
        pfxB [99] S = true ∧
        (∀ e ∈ ([[99, 97], [99, 97, 116]] : List Str),
          pfxB [99] e = true → pfxB S e = true) ∧
        (S ∈ ([[99, 97], [99, 97, 116]] : List Str) →
          ([[99, 97], [99, 97, 116]] : List Str).filter
            (fun e => pfxB [99] e) = [S]) ∧
        autocomplete ⟨[], [([99, 97], [47, 98]), ([99, 97, 116], [47, 98])]⟩ [99] =
          append_escaped (List.drop 1 S) [] := by
  rintro ⟨S, h1, h2, h3, h4⟩
  have hcomp : autocomplete
      ⟨[], [([99, 97], [47, 98]), ([99, 97, 116], [47, 98])]⟩ [99] = [97] := by
    decide
  rw [hcomp] at h4
  obtain ⟨u, rfl⟩ := pfxB_exists.mp h1
  have hdrop : List.drop 1 ([99] ++ u) = u := rfl
  rw [hdrop] at h4
  have hu : u = [97] := append_escaped_eq_a h4.symm
  subst hu
  have hmem : ([99] ++ [97] : Str) ∈ ([[99, 97], [99, 97, 116]] : List Str) := by
    decide
  exact absurd (h3 hmem) (by decide)

/-! ### Database construction (`executables_database::initialize`) -/

/-- One entry seen by the `std::filesystem::directory_iterator`: its base
file name and whether its permission bits intersect the execute mask
(owner/group/others execute). -/
structure DirEntry where
  name : Str
  is_exec : Bool

/-- Abstract file-system snapshot: directory path, associated with the
directory's entries in iteration order.  A directory absent from the
association cannot be opened: the `directory_iterator` constructor throws
and the surrounding `catch` skips the directory. -/
abbrev FileSys := List (Str × List DirEntry)

def lookupDir (fs : FileSys) (d : Str) : Option (List DirEntry) :=
  (fs.find? (fun p => p.1 == d)).map (fun p => p.2)

/-- `std::filesystem` path append rendered back to a byte string:
`directory / name`. -/
def pathJoin (d n : Str) : Str := d ++ [47] ++ n

/-- The PATH-splitting loop of `executables_database::initialize`
(`src/executables_database.cc` lines 100-110): each component is the segment
before the next ':' (0x3a); after a ':' the scan continues (so empty
components are produced), but when the remainder after a ':' is empty the
loop stops without producing a trailing empty component.  `cur` is the
component accumulated so far. -/
def path_comp_go : Str → Str → List Str
  | cur, [] => [cur]
  | cur, c :: rest =>
      if c = 58 then cur :: (if rest.isEmpty then [] else path_comp_go [] rest)
      else path_comp_go (cur ++ [c]) rest

def path_components (s : Str) : List Str :=
  if s = [] then [] else path_comp_go [] s

/-- One step of the scan (`src/executables_database.cc` lines 117-135): if
the entry is executable, insert its full path into `paths_` (set semantics:
no duplicate is added) and, if its base name is not yet a key, record
`name -> directory` in `files_`.  The C++ containers keep keys sorted; this
model records contents in insertion order and the statements proved about it
are order-insensitive (membership and key lookup). -/
def db_insert (db : ExecDb) (d : Str) (e : DirEntry) : ExecDb :=
  if e.is_exec then
    { paths :=
        if pathJoin d e.name ∈ db.paths then db.paths
        else db.paths ++ [pathJoin d e.name],
      files :=
        if (db.files.find? (fun p => p.1 == e.name)).isSome then db.files
        else db.files ++ [(e.name, d)] }
  else db

/-- `executables_database::initialize` (`src/executables_database.cc` lines
81-139) relative to an abstract PATH value (`none` when the environment
variable is unset) and file-system snapshot: start from cleared containers,
scan every PATH component in order, silently skipping unopenable
directories. -/
def initialize_database (path : Option Str) (fs : FileSys) : ExecDb :=
  match path with
  | none => ⟨[], []⟩
  | some s =>
      (path_components s).foldl
        (fun db d =>
          match lookupDir fs d with
          | none => db
          | some es => es.foldl (fun db e => db_insert db d e) db)
        ⟨[], []⟩

/-- Key lookup in `files_` (`std::map::find`), returning the mapped
directory. -/
def lookupName (db : ExecDb) (n : Str) : Option Str :=
  (db.files.find? (fun p => p.1 == n)).map (fun p => p.2)

/-- The `(directory, entry)` pairs visited by `initialize`, in visit order
(PATH order, then directory iteration order). -/
def scan_pairs (path : Option Str) (fs : FileSys) : List (Str × DirEntry) :=
  match path with
  | none => []
  | some s =>
      (path_components s).flatMap
        (fun d => ((lookupDir fs d).getD []).map (fun e => (d, e)))

theorem foldl_dirs (fs : FileSys) : ∀ (dirs : List Str) (db : ExecDb),
    dirs.foldl
      (fun db d =>
        match lookupDir fs d with
        | none => db
        | some es => es.foldl (fun db e => db_insert db d e) db) db =
    (dirs.flatMap
        (fun d => ((lookupDir fs d).getD []).map (fun e => (d, e)))).foldl
      (fun db pr => db_insert db pr.1 pr.2) db := by
  intro dirs
  induction dirs with
  | nil => intro db; rfl
  | cons d dirs ih =>
      intro db
      simp only [List.foldl_cons, List.flatMap_cons, List.foldl_append]
      cases hl : lookupDir fs d with
      | none => simpa [hl] using ih db
      | some es =>
          simp only [hl, Option.getD_some, List.foldl_map]
          exact ih _

theorem initialize_eq_foldl (path : Option Str) (fs : FileSys) :
    initialize_database path fs =
      (scan_pairs path fs).foldl (fun db pr => db_insert db pr.1 pr.2) ⟨[], []⟩ := by
  cases path with
  | none => rfl
  | some s => exact foldl_dirs fs (path_components s) ⟨[], []⟩

theorem lookupName_db_insert (db : ExecDb) (d : Str) (e : DirEntry) (n : Str) :
    lookupName (db_insert db d e) n =
      if e.is_exec && e.name == n then (lookupName db n).or (some d)
      else lookupName db n := by
  cases hex : e.is_exec with
  | false => simp [db_insert, hex]
  | true =>
      by_cases hen : e.name = n
      · subst hen
        cases hf : db.files.find? (fun p => p.1 == e.name) with
        | none => simp [db_insert, hex, lookupName, hf, List.find?_append]
        | some pr => simp [db_insert, hex, lookupName, hf]
      · cases hf : db.files.find? (fun p => p.1 == e.name) with
        | none => simp [db_insert, hex, lookupName, hf, List.find?_append, hen]
        | some pr => simp [db_insert, hex, lookupName, hf, hen]

theorem lookupName_foldl : ∀ (ps : List (Str × DirEntry)) (db : ExecDb) (n : Str),
    lookupName (ps.foldl (fun db pr => db_insert db pr.1 pr.2) db) n =
      (lookupName db n).or
        ((ps.filter (fun pr => pr.2.is_exec && pr.2.name == n)).head?.map
          (fun pr => pr.1))
  | [], db, n => by simp
  | pr :: ps, db, n => by
      simp only [List.foldl_cons]
      rw [lookupName_foldl ps _ n, lookupName_db_insert]
      by_cases hc : (pr.2.is_exec && pr.2.name == n) = true
      · rw [if_pos hc]
        have hfc : List.filter (fun pr => pr.2.is_exec && pr.2.name == n) (pr :: ps)
            = pr :: List.filter (fun pr => pr.2.is_exec && pr.2.name == n) ps := by
          simp [List.filter_cons, hc]
        rw [hfc]
        show ((lookupName db n).or (some pr.1)).or
            ((List.filter (fun pr => pr.2.is_exec && pr.2.name == n) ps).head?.map
              (fun pr => pr.1)) = (lookupName db n).or (some pr.1)
        rw [Option.or_assoc]
        rfl
      · have hc' : (pr.2.is_exec && pr.2.name == n) = false := by
          cases hx : (pr.2.is_exec && pr.2.name == n)
          · rfl
          · exact absurd hx hc
        rw [if_neg hc]
        simp [List.filter_cons, hc']

theorem paths_db_insert (db : ExecDb) (d : Str) (e : DirEntry) (p : Str) :
    p ∈ (db_insert db d e).paths ↔
      p ∈ db.paths ∨ (e.is_exec = true ∧ p = pathJoin d e.name) := by
  cases hex : e.is_exec with
  | false => simp [db_insert, hex]
  | true =>
      by_cases hmem : pathJoin d e.name ∈ db.paths
      · simp only [db_insert, hex, if_pos rfl, if_pos hmem, true_and]
        exact ⟨Or.inl, fun h => h.elim id (fun he => he ▸ hmem)⟩
      · simp [db_insert, hex, hmem, List.mem_append]

theorem paths_mem_foldl : ∀ (ps : List (Str × DirEntry)) (db : ExecDb) (p : Str),
    p ∈ (ps.foldl (fun db pr => db_insert db pr.1 pr.2) db).paths ↔
      p ∈ db.paths ∨
        ∃ pr ∈ ps, pr.2.is_exec = true ∧ p = pathJoin pr.1 pr.2.name
  | [], db, p => by simp
  | pr0 :: ps, db, p => by
      simp only [List.foldl_cons]
      rw [paths_mem_foldl ps _ p, paths_db_insert]
      simp only [List.mem_cons]
      constructor
      · rintro (⟨h | h⟩ | ⟨q, hq, h1, h2⟩)
        · exact Or.inl h
        · exact Or.inr ⟨pr0, Or.inl rfl, h⟩
        · exact Or.inr ⟨q, Or.inr hq, h1, h2⟩
      · rintro (h | ⟨q, hq | hq, h1, h2⟩)
        · exact Or.inl (Or.inl h)
        · exact Or.inl (Or.inr (by rw [hq] at h1 h2; exact ⟨h1, h2⟩))
        · exact Or.inr ⟨q, hq, h1, h2⟩

theorem paths_nodup_foldl : ∀ (ps : List (Str × DirEntry)) (db : ExecDb),
    db.paths.Nodup →
      ((ps.foldl (fun db pr => db_insert db pr.1 pr.2) db).paths).Nodup
  | [], _, h => h
  | pr :: ps, db, h => by
      simp only [List.foldl_cons]
      apply paths_nodup_foldl
      cases hex : pr.2.is_exec with
      | false => simpa [db_insert, hex] using h
      | true =>
          by_cases hmem : pathJoin pr.1 pr.2.name ∈ db.paths
          · simpa [db_insert, hex, hmem] using h
          · simp [db_insert, hex, hmem, List.nodup_append, h]

/-- C4: after a rebuild, name lookup returns the directory of the first
executable entry with that base name in scan order (PATH order, then
directory order) — so with two PATH directories both containing an
executable `n`, `names[n]` is the earlier directory and later duplicates are
ignored — while `paths` contains exactly the full paths of the executable
entries found, without duplicates. -/
theorem initialize_database_spec (path : Option Str) (fs : FileSys) :
    (∀ n : Str,
        lookupName (initialize_database path fs) n =
          ((scan_pairs path fs).filter
              (fun pr => pr.2.is_exec && pr.2.name == n)).head?.map
            (fun pr => pr.1)) ∧
    (∀ p : Str,
        p ∈ (initialize_database path fs).paths ↔
          ∃ pr ∈ scan_pairs path fs,
            pr.2.is_exec = true ∧ p = pathJoin pr.1 pr.2.name) ∧
    (initialize_database path fs).paths.Nodup := by
  refine ⟨?_, ?_, ?_⟩
  · intro n
    rw [initialize_eq_foldl, lookupName_foldl]
    simp [lookupName]
  · intro p
    rw [initialize_eq_foldl, paths_mem_foldl]
    simp
  · rw [initialize_eq_foldl]
    exact paths_nodup_foldl _ _ (by simp)

/-! ### Canonicalization (`modify_command_string`) -/

/-- `src/executables_database.cc`, `append_escaped_path` (lines 33-45):
append the escaped path to `result`; if the last appended byte is not '/',
append one. -/
def append_escaped_path (path result : Str) : Str :=
  if path = [] then result
  else
    if (append_escaped path result).getLast? ≠ some 47 then
      append_escaped path result ++ [47]
    else append_escaped path result

/-- `executables_database::append_command_string_`
(`src/executables_database.cc` lines 316-333): a token starting with '/' is
escaped as-is; otherwise a token found in `files_` is rendered as escaped
directory, '/', escaped name; otherwise the token is escaped as-is.  A
non-empty argument remainder is appended after a single space. -/
def append_command_string (db : ExecDb) (command arguments result : Str) : Str :=
  if arguments ≠ [] then
    (if command.head? = some 47 then append_escaped command result
     else
       match db.files.find? (fun p => p.1 == command) with
       | some pr => append_escaped pr.1 (append_escaped_path pr.2 result)
       | none => append_escaped command result) ++ [32] ++ arguments
  else
    if command.head? = some 47 then append_escaped command result
    else
      match db.files.find? (fun p => p.1 == command) with
      | some pr => append_escaped pr.1 (append_escaped_path pr.2 result)
      | none => append_escaped command result

/-- `executables_database::modify_command_string`
(`src/executables_database.cc` lines 299-310): split the input and rebuild
it in canonical form into a cleared result. -/
def modify_command_string (db : ExecDb) (input : Str) : Str :=
  append_command_string db (split_command_string input).1
    (split_command_string input).2 []

theorem append_escaped_no_space : ∀ {s : Str}, 32 ∉ s → ∀ r : Str,
    append_escaped s r = r ++ s := by
  intro s
  induction s with
  | nil => intro _ r; simp [append_escaped]
  | cons c rest ih =>
      intro h r
      have hc : c ≠ 32 := fun he => h (he ▸ List.mem_cons_self c rest)
      have hrest : 32 ∉ rest := fun hm => h (List.mem_cons_of_mem c hm)
      rw [append_escaped, if_neg hc, ih hrest (r ++ [c])]
      simp

/-- C5 (amended): `modify_command_string` splits the input into token and
argument remainder and rebuilds the command in escaped (typed) form: a token
starting with '/' is reproduced as its escaped form (not the raw token); a
bare command name that is a key of `files_` resolves to
`directory ++ "/" ++ name` whenever the mapped directory is non-empty, has
no trailing '/', and directory and name contain no spaces; an unknown bare
name is reproduced as its escaped form; and a non-empty argument remainder
is reattached verbatim after exactly one separating space. -/
theorem modify_command_string_spec (db : ExecDb) (input tok args : Str)
    (hsplit : split_command_string input = (tok, args)) :
    (tok.head? = some 47 →
      modify_command_string db input =
        append_escaped tok [] ++ (if args = [] then [] else [32] ++ args)) ∧
    (∀ dd : Str, tok.head? ≠ some 47 →
      db.files.find? (fun p => p.1 == tok) = some (tok, dd) →
      dd ≠ [] → dd.getLast? ≠ some 47 → 32 ∉ dd → 32 ∉ tok →
      modify_command_string db input =
        dd ++ [47] ++ tok ++ (if args = [] then [] else [32] ++ args)) ∧
    (tok.head? ≠ some 47 →
      db.files.find? (fun p => p.1 == tok) = none →
      modify_command_string db input =
        append_escaped tok [] ++ (if args = [] then [] else [32] ++ args)) := by
  unfold modify_command_string
  rw [hsplit]
  refine ⟨?_, ?_, ?_⟩
  · intro h47
    unfold append_command_string
    rw [if_pos h47]
    by_cases ha : args = []
    · simp [ha]
    · rw [if_pos ha]
      simp [ha]
  · intro dd h47 hfind hddne hddsl hddsp htoksp
    have hbody :
        (if tok.head? = some 47 then append_escaped tok []
         else
           match db.files.find? (fun p => p.1 == tok) with
           | some pr => append_escaped pr.1 (append_escaped_path pr.2 [])
           | none => append_escaped tok []) =
          dd ++ [47] ++ tok := by
      rw [if_neg h47, hfind]
      show append_escaped tok (append_escaped_path dd []) = dd ++ [47] ++ tok
      have hesc : append_escaped dd [] = dd := by
        rw [append_escaped_no_space hddsp]
        simp
      have hpath : append_escaped_path dd [] = dd ++ [47] := by
        unfold append_escaped_path
        rw [if_neg hddne, hesc, if_pos (by simpa [hesc] using hddsl)]
      rw [hpath, append_escaped_no_space htoksp]
    unfold append_command_string
    by_cases ha : args = []
    · rw [if_neg (by simp [ha])]
      rw [if_neg h47, hfind] at hbody ⊢
      rw [if_pos ha]
      simpa using hbody
    · rw [if_pos ha]
      rw [if_neg h47, hfind] at hbody ⊢
      rw [if_neg ha]
      rw [hbody]
      simp
  · intro h47 hfind
    unfold append_command_string
    by_cases ha : args = []
    · rw [if_neg (by simp [ha]), if_neg h47, hfind, if_pos ha]
      simp
    · rw [if_pos ha, if_neg h47, hfind, if_neg ha]
      simp

/-- C5 witness: with `files_` mapping "ls" to "/bin", the input "ls -l"
canonicalizes to "/bin/ls -l". -/
theorem modify_command_string_spec_witness :
    modify_command_string ⟨[], [([108, 115], [47, 98, 105, 110])]⟩
        [108, 115, 32, 45, 108] =
      [47, 98, 105, 110] ++ [47] ++ [108, 115] ++
        (if ([45, 108] : Str) = [] then [] else [32] ++ [45, 108]) :=
  (modify_command_string_spec ⟨[], [([108, 115], [47, 98, 105, 110])]⟩
      [108, 115, 32, 45, 108] [108, 115] [45, 108] (by decide)).2.1
    [47, 98, 105, 110] (by decide) (by decide) (by decide) (by decide)
    (by decide) (by decide)

/-- C5 counterexample: for the typed input "/a\\ b" the command token is
"/a b" (it starts with '/'), the argument remainder is empty, yet
`modify_command_string` does not return the token unchanged — it returns the
re-escaped form "/a\\ b". -/
theorem modify_claim_counterexample :
    split_command_string [47, 97, 92, 32, 98] = ([47, 97, 32, 98], []) ∧
      modify_command_string ⟨[], []⟩ [47, 97, 92, 32, 98] ≠ [47, 97, 32, 98] := by
  decide

/-! ### Command staging and the local executor (`src/execution.cc`) -/

/-- The escape-processing loop of `initialize_command` (`src/execution.cc`
lines 32-54), including the 64 KiB staging buffer's overflow guard: at the
top of each iteration, if 65535 bytes (`storage.size() - 1`) have already
been written, the command size is reset to zero and processing stops —
modelled as `none`.  Otherwise: an unescaped backslash only sets the escape
flag; a space becomes a space when escaped and a NUL separator otherwise;
every other byte is copied. -/
def init_cmd_go : Bool → Str → Str → Option Str
  | _, out, [] => some out
  | esc, out, c :: rest =>
      if out.length = 65535 then none
      else if !esc && c = 92 then init_cmd_go true out rest
      else if c = 32 then init_cmd_go false (out ++ [if esc then 32 else 0]) rest
      else init_cmd_go false (out ++ [c]) rest

/-- `initialize_command` (`src/execution.cc` lines 23-64): the staged argv
blob; a terminating NUL is appended when the last written byte is not
already NUL (the staging buffer is zero-initialized).  The empty blob
(`command.size == 0`) is the failure/empty outcome. -/
def initialize_command (s : Str) : Str :=
  match init_cmd_go false [] s with
  | none => []
  | some out => if out ≠ [] ∧ out.getLast? ≠ some 0 then out ++ [0] else out

/-- Unbounded escape processing (specification side): the argv bytes the
typed string denotes, with no buffer bound. -/
def escape_core : Bool → Str → Str
  | _, [] => []
  | esc, c :: rest =>
      if !esc && c = 92 then escape_core true rest
      else if c = 32 then (if esc then 32 else 0) :: escape_core false rest
      else c :: escape_core false rest

/-- The full NUL-terminated argv blob a typed string denotes (specification
side, no buffer bound). -/
def escape_blob (s : Str) : Str :=
  if escape_core false s ≠ [] ∧ (escape_core false s).getLast? ≠ some 0
  then escape_core false s ++ [0] else escape_core false s

/-- `execute(pipe_endpoint const&, std::u8string_view)` (`src/execution.cc`
lines 95-123) in terms of what reaches the pipe: `none` when the function
returns `failure` without issuing any `write`; `some (n, payload)` when it
writes the 16-bit length prefix holding `n` followed by `payload`. -/
def execute_pipe (s : Str) : Option (Nat × Str) :=
  if initialize_command s = [] then none
  else some ((initialize_command s).length % 65536, initialize_command s)

theorem init_cmd_go_some : ∀ (s : Str) (esc : Bool) (out r : Str),
    init_cmd_go esc out s = some r → r = out ++ escape_core esc s := by
  intro s
  induction s with
  | nil =>
      intro esc out r h
      simp only [init_cmd_go, Option.some.injEq] at h
      simp [escape_core, ← h]
  | cons c rest ih =>
      intro esc out r h
      simp only [init_cmd_go] at h
      by_cases hfull : out.length = 65535
      · rw [if_pos hfull] at h; cases h
      · rw [if_neg hfull] at h
        by_cases hesc : (!esc && c = 92) = true
        · rw [if_pos hesc] at h
          rw [ih true out r h]
          simp only [escape_core]
          rw [if_pos hesc]
        · rw [if_neg hesc] at h
          by_cases hsp : c = 32
          · rw [if_pos hsp] at h
            rw [ih false _ r h]
            simp only [escape_core]
            rw [if_neg hesc, if_pos hsp]
            simp
          · rw [if_neg hsp] at h
            rw [ih false _ r h]
            simp only [escape_core]
            rw [if_neg hesc, if_neg hsp]
            simp

theorem init_cmd_go_none : ∀ (s : Str) (esc : Bool) (out : Str),
    out.length ≤ 65535 → 65535 < out.length + (escape_core esc s).length →
    init_cmd_go esc out s = none := by
  intro s
  induction s with
  | nil =>
      intro esc out h1 h2
      simp [escape_core] at h2
      omega
  | cons c rest ih =>
      intro esc out h1 h2
      simp only [init_cmd_go]
      by_cases hfull : out.length = 65535
      · rw [if_pos hfull]
      · rw [if_neg hfull]
        have hlt : out.length < 65535 := by omega
        by_cases hesc : (!esc && c = 92) = true
        · rw [if_pos hesc]
          apply ih true out h1
          have hcr : escape_core esc (c :: rest) = escape_core true rest := by
            simp only [escape_core]; rw [if_pos hesc]
          rw [hcr] at h2
          exact h2
        · rw [if_neg hesc]
          by_cases hsp : c = 32
          · rw [if_pos hsp]
            apply ih false _ (by simp; omega)
            have hcr : escape_core esc (c :: rest) =
                (if esc then 32 else 0) :: escape_core false rest := by
              simp only [escape_core]; rw [if_neg hesc, if_pos hsp]
            rw [hcr] at h2
            simp only [List.length_append, List.length_cons] at h2 ⊢
            omega
          · rw [if_neg hsp]
            apply ih false _ (by simp; omega)
            have hcr : escape_core esc (c :: rest) =
                c :: escape_core false rest := by
              simp only [escape_core]; rw [if_neg hesc, if_neg hsp]
            rw [hcr] at h2
            simp only [List.length_append, List.length_cons] at h2 ⊢
            omega

/-- C9: if the full NUL-terminated argv blob of the typed string does not
fit into the 64 KiB staging buffer, `execute` over the executor pipe returns
failure and writes nothing to the pipe; likewise when the string
escape-processes to an empty blob. -/
theorem execute_pipe_failure (s : Str) :
    (65536 < (escape_blob s).length → execute_pipe s = none) ∧
    (escape_blob s = [] → execute_pipe s = none) := by
  constructor
  · intro hov
    have hcore : 65535 < (escape_core false s).length := by
      unfold escape_blob at hov
      by_cases hc : escape_core false s ≠ [] ∧
          (escape_core false s).getLast? ≠ some 0
      · rw [if_pos hc] at hov
        simp at hov
        omega
      · rw [if_neg hc] at hov
        omega
    have hnone : init_cmd_go false [] s = none :=
      init_cmd_go_none s false [] (by simp) (by simpa using hcore)
    unfold execute_pipe initialize_command
    rw [hnone]
    simp
  · intro hemp
    have hcore : escape_core false s = [] := by
      by_contra hne
      unfold escape_blob at hemp
      by_cases hc : escape_core false s ≠ [] ∧
          (escape_core false s).getLast? ≠ some 0
      · rw [if_pos hc] at hemp
        simp at hemp
      · rw [if_neg hc] at hemp
        exact hne hemp
    unfold execute_pipe initialize_command
    cases hgo : init_cmd_go false [] s with
    | none => simp
    | some out =>
        have hout : out = [] := by
          have := init_cmd_go_some s false [] out hgo
          simpa [hcore] using this
        subst hout
        simp

/-- C9 witness: an input consisting of a single backslash escape-processes
to the empty blob, and submission fails with no write; an input of 65537
plain bytes has a blob of 65538 bytes, which overflows the staging buffer,
and submission fails with no write. -/
theorem execute_pipe_failure_witness :
    (escape_blob [92] = [] ∧ execute_pipe [92] = none) ∧
    (65536 < (escape_blob (List.replicate 65537 97)).length ∧
      execute_pipe (List.replicate 65537 97) = none) := by
  have hrep : ∀ n : Nat, escape_core false (List.replicate n 97) =
      List.replicate n 97 := by
    intro n
    induction n with
    | zero => rfl
    | succ n ih =>
        rw [List.replicate_succ]
        simp only [escape_core]
        rw [if_neg (by simp), if_neg (by simp)]
        rw [ih]
  have hlast : (List.replicate 65537 97).getLast? = some 97 := by
    rw [show List.replicate 65537 97 = List.replicate 65536 97 ++ [97] from by
      rw [← List.replicate_succ']]
    exact List.getLast?_concat _
  have hlen : 65536 < (escape_blob (List.replicate 65537 97)).length := by
    unfold escape_blob
    rw [hrep]
    rw [if_pos ⟨fun h => by
        have hc := congrArg List.length h
        rw [List.length_replicate] at hc
        simp at hc,
      by rw [hlast]; simp⟩]
    rw [List.length_append, List.length_replicate]
    omega
  refine ⟨⟨by decide, (execute_pipe_failure [92]).2 (by decide)⟩,
    ⟨hlen, (execute_pipe_failure (List.replicate 65537 97)).1 hlen⟩⟩

/-! ### The executor read loop (`run_executor_process`) -/

/-- The NUL-separated strings denoted by a payload (specification side):
scan byte by byte, emitting the accumulated piece at each NUL; a non-empty
final piece without a terminating NUL is also emitted. -/
def nul_pieces_go : Str → Str → List Str
  | cur, [] => if cur = [] then [] else [cur]
  | cur, c :: rest =>
      if c = 0 then cur :: nul_pieces_go [] rest
      else nul_pieces_go (cur ++ [c]) rest

/-- The sequence of NUL-separated strings of a payload, in order. -/
def nul_pieces (p : Str) : List Str := nul_pieces_go [] p

/-- The argv-collection loop of the executor (`src/execution.cc` lines
208-223): at most 255 argument slots (`argument_storage` holds 256 pointers,
the last is kept NULL); each argument is read with `strlen` starting right
after the previous NUL; after storing an argument the loop stops when the
consumed offset reaches the packet size — here, when the unread suffix `s`
of the payload is exhausted. -/
def collect_args : Nat → Str → List Str → List Str
  | 0, _, acc => acc.reverse
  | slots + 1, s, acc =>
      if s.drop ((s.takeWhile (fun x => x != 0)).length + 1) = [] then
        (s.takeWhile (fun x => x != 0) :: acc).reverse
      else
        collect_args slots (s.drop ((s.takeWhile (fun x => x != 0)).length + 1))
          (s.takeWhile (fun x => x != 0) :: acc)

/-- The argv vector built from a valid payload. -/
def parse_args (payload : Str) : List Str := collect_args 255 payload []

/-- The executor's packet loop (`run_executor_process`, `src/execution.cc`
lines 174-257), observed as the sequence of argv vectors handed to `execvp`:
the input is the list of payloads read from the pipe (the u16 length prefix
always equals the payload length); the end of the list is a failed or
zero-byte `read` (pipe closed), which terminates the loop and the executor
process.  A zero-length payload is skipped; a payload whose last byte is not
NUL is discarded; otherwise a process is launched with the parsed argv. -/
def run_executor : List Str → List (List Str)
  | [] => []
  | p :: rest =>
      if p.length = 0 then run_executor rest
      else if p.getLast? ≠ some 0 then run_executor rest
      else parse_args p :: run_executor rest

theorem getLast?_append_right {l1 l2 : Str} (h : l2 ≠ []) :
    (l1 ++ l2).getLast? = l2.getLast? := by
  rw [List.getLast?_append]
  have hs : l2.getLast?.isSome = true := List.getLast?_isSome.mpr h
  obtain ⟨x, hx⟩ := Option.isSome_iff_exists.mp hs
  rw [hx]
  rfl

theorem nul_decomp : ∀ {s : Str}, s ≠ [] → s.getLast? = some 0 →
    s = s.takeWhile (fun x => x != 0) ++
      0 :: s.drop ((s.takeWhile (fun x => x != 0)).length + 1) := by
  intro s
  induction s with
  | nil => intro h _; exact absurd rfl h
  | cons c rest ih =>
      intro _ hlast
      by_cases hc : c = 0
      · subst hc
        rw [List.takeWhile_cons, if_neg (by simp)]
        simp
      · have hrest_ne : rest ≠ [] := by
          rintro rfl
          simp [List.getLast?] at hlast
          exact hc hlast
        have hlast' : rest.getLast? = some 0 := by
          cases rest with
          | nil => exact absurd rfl hrest_ne
          | cons d ds => rw [List.getLast?_cons_cons] at hlast; exact hlast
        have hd := ih hrest_ne hlast'
        rw [List.takeWhile_cons, if_pos (by simp [hc])]
        simp only [List.length_cons, List.drop_succ_cons, List.cons_append]
        exact congrArg (c :: ·) hd

theorem nul_pieces_go_split : ∀ (pre : Str), 0 ∉ pre → ∀ (s' cur : Str),
    nul_pieces_go cur (pre ++ 0 :: s') = (cur ++ pre) :: nul_pieces_go [] s' := by
  intro pre
  induction pre with
  | nil =>
      intro _ s' cur
      simp [nul_pieces_go]
  | cons c pre ih =>
      intro h s' cur
      have hc : c ≠ 0 := fun he => h (he ▸ List.mem_cons_self c pre)
      have hpre : 0 ∉ pre := fun hm => h (List.mem_cons_of_mem c hm)
      rw [List.cons_append]
      show nul_pieces_go cur (c :: (pre ++ 0 :: s')) = _
      rw [nul_pieces_go, if_neg hc, ih hpre s' (cur ++ [c])]
      simp

theorem nul_pieces_cons_of_last0 {s : Str} (hne : s ≠ [])
    (hlast : s.getLast? = some 0) :
    nul_pieces s = s.takeWhile (fun x => x != 0) ::
      nul_pieces (s.drop ((s.takeWhile (fun x => x != 0)).length + 1)) := by
  have h0 : 0 ∉ s.takeWhile (fun x => x != 0) := by
    intro hm
    have := List.mem_takeWhile_imp hm
    simp at this
  conv_lhs => rw [nul_pieces, nul_decomp hne hlast]
  rw [nul_pieces_go_split _ h0]
  simp [nul_pieces]

theorem collect_args_pieces : ∀ (n : Nat) (s : Str) (acc : List Str),
    s ≠ [] → s.getLast? = some 0 →
    collect_args n s acc = acc.reverse ++ (nul_pieces s).take n := by
  intro n
  induction n with
  | zero => intro s acc _ _; simp [collect_args]
  | succ n ih =>
      intro s acc hne hlast
      have hdec := nul_decomp hne hlast
      have hpieces := nul_pieces_cons_of_last0 hne hlast
      simp only [collect_args]
      by_cases hemp : s.drop ((s.takeWhile (fun x => x != 0)).length + 1) = []
      · rw [if_pos hemp]
        rw [hpieces, hemp]
        simp [nul_pieces, nul_pieces_go, List.take_succ_cons]
      · rw [if_neg hemp]
        have hlast' :
            (s.drop ((s.takeWhile (fun x => x != 0)).length + 1)).getLast? =
              some 0 := by
          have h1 : s.getLast? =
              (s.drop ((s.takeWhile (fun x => x != 0)).length + 1)).getLast? := by
            conv_lhs => rw [hdec]
            rw [getLast?_append_right (List.cons_ne_nil _ _)]
            rw [show (0 : Nat) ::
                s.drop ((s.takeWhile (fun x => x != 0)).length + 1) =
                [0] ++ s.drop ((s.takeWhile (fun x => x != 0)).length + 1)
              from rfl]
            rw [getLast?_append_right hemp]
          rw [← h1]
          exact hlast
        rw [ih _ _ hemp hlast', hpieces]
        simp [List.take_succ_cons]

/-- C3 (amended): in the executor's read loop, a zero-length payload is
skipped, a payload whose last byte is not NUL is discarded, and in both
cases the loop continues with the remaining packets; a payload ending in NUL
launches exactly one process whose argv is the sequence of NUL-separated
strings of the payload in order, truncated to the first 255 strings (the
executor reserves 256 argv slots, the last for the terminating NULL
pointer); the end of the packet stream (read failure or pipe closure)
terminates the loop with no further launches.  The packet
`{len=6, payload="ls\0-l\0"}` launches argv `["ls","-l"]`. -/
theorem run_executor_spec :
    (∀ rest : List Str, run_executor ([] :: rest) = run_executor rest) ∧
    (∀ (p : Str) (rest : List Str), p.getLast? ≠ some 0 →
      run_executor (p :: rest) = run_executor rest) ∧
    (∀ (p : Str) (rest : List Str), p ≠ [] → p.getLast? = some 0 →
      run_executor (p :: rest) = (nul_pieces p).take 255 :: run_executor rest) ∧
    run_executor [] = [] ∧
    run_executor [[108, 115, 0, 45, 108, 0]] = [[[108, 115], [45, 108]]] := by
  refine ⟨?_, ?_, ?_, rfl, by decide⟩
  · intro rest
    simp [run_executor]
  · intro p rest hlast
    by_cases hp : p.length = 0
    · simp [run_executor, hp]
    · simp only [run_executor]
      rw [if_neg hp, if_pos hlast]
  · intro p rest hne hlast
    have hp : ¬ p.length = 0 := by
      simpa [List.length_eq_zero] using hne
    simp only [run_executor]
    rw [if_neg hp, if_neg (by simp [hlast]), parse_args,
      collect_args_pieces 255 p [] hne hlast]
    simp

/-- C3 witness: the three loop clauses at concrete packets — payload
"a" (no trailing NUL) is discarded, and payload "ls\0-l\0" launches
["ls","-l"]. -/
theorem run_executor_spec_witness :
    run_executor [[97], [108, 115, 0, 45, 108, 0]] =
      [(nul_pieces [108, 115, 0, 45, 108, 0]).take 255] := by
  have h1 := run_executor_spec.2.1 [97] [[108, 115, 0, 45, 108, 0]] (by decide)
  have h2 := run_executor_spec.2.2.1 [108, 115, 0, 45, 108, 0] [] (by decide)
    (by decide)
  rw [h1, h2]
  rfl

set_option maxRecDepth 4096 in
/-- C3 counterexample: a payload of 256 NUL bytes denotes 256 empty argument
strings, but the executor's argv has only 255 slots, so the launched argv is
truncated — the claim's "argv is exactly the sequence of NUL-separated
strings of the payload" fails. -/
theorem run_executor_claim_counterexample :
    run_executor [List.replicate 256 0] ≠ [nul_pieces (List.replicate 256 0)] := by
  decide

/-! ### The IPC client (`src/ipc.cc`) -/

/-- The request kinds posted to the consumer thread (`enum struct request`,
`src/ipc.hh`). -/
inductive RoseRequest
  | prompt_normal
  | prompt_privileged
  | reload_database
  | reload_theme
deriving DecidableEq

/-- The IPC-client state relevant to execution requests: the dispatch
channel's `is_tx_active` flag and the packets posted to the I/O thread
(`asio::post` in `request_execution`, `src/ipc.cc` lines 386-391), in
order.  A posted packet is the first `size` bytes of the staged
`ipc_packet_storage`. -/
structure IpcClientState where
  is_tx_active : Bool
  posted : List Str

/-- `request_execution` (`src/ipc.cc` lines 362-393): fail at once when a
transmission is in flight; validate the blob — non-empty, at most
`ipc_packet_storage::static_size() - 1 = 8191` bytes, NUL-terminated; on
success post exactly one packet: the tag byte 0x03 followed by the blob
(the storage is zero-initialized with `{0x03}` and the blob copied at
offset 1; `size = blob length + 1`). -/
def request_execution (st : IpcClientState) (cmd : Str) : Bool × IpcClientState :=
  if st.is_tx_active then (false, st)
  else if cmd.length = 0 then (false, st)
  else if 8192 - 1 < cmd.length then (false, st)
  else if cmd.getLast? ≠ some 0 then (false, st)
  else (true, { st with posted := st.posted ++ [3 :: cmd] })

/-- C10: `request_execution` returns `false` and changes nothing — posts no
work — whenever the blob is empty, longer than 8191 bytes, or not
NUL-terminated; and whenever it returns `true` the posted packet is exactly
the tag byte 0x03 followed by the unmodified blob, of size blob length + 1,
which never exceeds the 8192-byte packet capacity. -/
theorem request_execution_spec (st : IpcClientState) (cmd : Str) :
    (cmd = [] ∨ 8191 < cmd.length ∨ cmd.getLast? ≠ some 0 →
      request_execution st cmd = (false, st)) ∧
    ((request_execution st cmd).1 = true →
      (request_execution st cmd).2.posted = st.posted ++ [3 :: cmd] ∧
      (3 :: cmd).length = cmd.length + 1 ∧ (3 :: cmd).length ≤ 8192) := by
  constructor
  · intro h
    unfold request_execution
    by_cases h1 : st.is_tx_active = true
    · rw [if_pos h1]
    · rw [if_neg h1]
      by_cases h2 : cmd.length = 0
      · rw [if_pos h2]
      · rw [if_neg h2]
        by_cases h3 : 8192 - 1 < cmd.length
        · rw [if_pos h3]
        · rw [if_neg h3]
          have h4 : cmd.getLast? ≠ some 0 := by
            rcases h with hc | hc | hc
            · exact absurd (by simp [hc]) h2
            · exact absurd (by omega : 8192 - 1 < cmd.length) h3
            · exact hc
          rw [if_pos h4]
  · intro htrue
    unfold request_execution at htrue ⊢
    by_cases h1 : st.is_tx_active = true
    · rw [if_pos h1] at htrue; simp at htrue
    · rw [if_neg h1] at htrue ⊢
      by_cases h2 : cmd.length = 0
      · rw [if_pos h2] at htrue; simp at htrue
      · rw [if_neg h2] at htrue ⊢
        by_cases h3 : 8192 - 1 < cmd.length
        · rw [if_pos h3] at htrue; simp at htrue
        · rw [if_neg h3] at htrue ⊢
          by_cases h4 : cmd.getLast? ≠ some 0
          · rw [if_pos h4] at htrue; simp at htrue
          · rw [if_neg h4]
            refine ⟨rfl, by simp, ?_⟩
            simp only [List.length_cons]
            omega

/-- C10 witness: a blob without NUL terminator is rejected with the state
unchanged; the valid blob `"c\0"` is posted as `[0x03, 99, 0]`. -/
theorem request_execution_spec_witness :
    request_execution ⟨false, []⟩ [99] = (false, ⟨false, []⟩) ∧
      (request_execution ⟨false, []⟩ [99, 0]).2.posted = [[3, 99, 0]] := by
  constructor
  · exact (request_execution_spec ⟨false, []⟩ [99]).1 (Or.inr (Or.inr (by decide)))
  · have h := ((request_execution_spec ⟨false, []⟩ [99, 0]).2 (by decide)).1
    simpa using h

/-- The synchronization skeleton of `send_dispatcher_packet` (`src/ipc.cc`
lines 142-172): `start_tx` is the atomic `is_tx_active.exchange(true)` —
when the flag is already set the coroutine returns at once, otherwise the
flag is set and one transmission becomes active; `end_tx` is the completed
transmission clearing the flag.  The state tracks the flag and the number of
active transmissions. -/
inductive TxEvent
  | start_tx
  | end_tx

def tx_step : Bool × Nat → TxEvent → Bool × Nat
  | (flag, n), .start_tx => if flag then (flag, n) else (true, n + 1)
  | (_, n), .end_tx => (false, n - 1)

/-- C6: submitting an execution request while the in-flight flag is set
returns failure immediately with the client state — including any posted
in-flight bytes — unchanged; and in the transmission model guarded by the
atomic exchange, every reachable state has at most one active transmission,
with none active whenever the flag is clear. -/
theorem request_single_flight :
    (∀ (st : IpcClientState) (cmd : Str), st.is_tx_active = true →
      request_execution st cmd = (false, st)) ∧
    (∀ trace : List TxEvent,
      (trace.foldl tx_step (false, 0)).2 ≤ 1 ∧
      ((trace.foldl tx_step (false, 0)).1 = false →
        (trace.foldl tx_step (false, 0)).2 = 0)) := by
  constructor
  · intro st cmd h
    unfold request_execution
    rw [if_pos h]
  · have hstep : ∀ (flag : Bool) (n : Nat) (e : TxEvent),
        (n ≤ 1 ∧ (flag = false → n = 0)) →
          ((tx_step (flag, n) e).2 ≤ 1 ∧
            ((tx_step (flag, n) e).1 = false → (tx_step (flag, n) e).2 = 0)) := by
      intro flag n e h
      obtain ⟨ha, hb⟩ := h
      cases e with
      | start_tx =>
          cases flag with
          | true =>
              constructor
              · simpa [tx_step] using ha
              · intro hf
                simp [tx_step] at hf
          | false =>
              have hn : n = 0 := hb rfl
              constructor
              · simp [tx_step, hn]
              · intro hf
                simp [tx_step] at hf
      | end_tx =>
          constructor
          · show n - 1 ≤ 1
            omega
          · intro _
            show n - 1 = 0
            omega
    have hfold : ∀ (trace : List TxEvent) (s : Bool × Nat),
        (s.2 ≤ 1 ∧ (s.1 = false → s.2 = 0)) →
          ((trace.foldl tx_step s).2 ≤ 1 ∧
            ((trace.foldl tx_step s).1 = false → (trace.foldl tx_step s).2 = 0)) := by
      intro trace
      induction trace with
      | nil => intro s hs; exact hs
      | cons e tr ih =>
          intro s hs
          exact ih (tx_step s e) (hstep s.1 s.2 e hs)
    intro trace
    exact hfold trace (false, 0) (by simp)

/-- C6 witness: with the in-flight flag set and a packet posted, a second
request fails and leaves the state — including the in-flight packet's
bytes — untouched. -/
theorem request_single_flight_witness :
    request_execution ⟨true, [[3, 108, 0]]⟩ [99, 0] =
      (false, ⟨true, [[3, 108, 0]]⟩) :=
  request_single_flight.1 ⟨true, [[3, 108, 0]]⟩ [99, 0] rfl

/-! ### Status-channel packet processing (`run_status_client`) -/

/-- The status message size table `data_sizes` (`src/ipc.cc` lines 194-211):
full message sizes including the leading type byte (`server_state_size + 1`
for type 0, `1` for types 1-3, `device_id_size + 1` for types 4-7, with
`sizeof(unsigned) = 4`). -/
def status_sizes : List Nat := [5, 1, 1, 1, 5, 5, 5, 5]

/-- `process_packet` of the status channel (`src/ipc.cc` lines 182-238):
consume type-tagged messages front to back; type 3 (theme) posts one
reload-theme event and abandons the rest of the packet; a type at or beyond
the size table's length ends processing; otherwise the packet shrinks by
`min(packet.size(), data_sizes[type])`. -/
def process_status_packet : Str → List RoseRequest
  | [] => []
  | t :: rest =>
      if h : t < 8 then
        if t = 3 then [RoseRequest.reload_theme]
        else
          process_status_packet
            ((t :: rest).drop (min (t :: rest).length (status_sizes.getD t 0)))
      else []
termination_by p => p.length
decreasing_by
  have hsz : 1 ≤ status_sizes.getD t 0 := by
    interval_cases t <;> decide
  simp only [List.length_drop, List.length_cons]
  omega

theorem status_sizes_ge_one {t : Nat} (h : t < 8) : 1 ≤ status_sizes.getD t 0 := by
  interval_cases t <;> decide

/-- Drop helper: dropping `min(length, k + 1)` from a cons is dropping `k`
from the tail, including the short-packet truncation. -/
theorem drop_min_cons (t : Nat) (rest : Str) (k : Nat) :
    (t :: rest).drop (min (t :: rest).length (k + 1)) = rest.drop k := by
  by_cases hr : k ≤ rest.length
  · rw [min_eq_right (by simp; omega)]
    simp
  · rw [min_eq_left (by simp; omega)]
    rw [List.drop_length]
    rw [List.drop_eq_nil_of_le (by omega)]

/-- C7: status messages are consumed front to back by their type byte with
the fixed size table — type 0 and types 4-7 consume 5 bytes, types 1 and 2
consume 1 byte; the first type-3 message posts exactly one reload-theme
event and processing of the packet stops even if trailing bytes remain; a
type byte outside the table stops processing with no event; and in all
cases at most one event is posted, and only reload-theme. -/
theorem process_status_packet_spec :
    (∀ rest : Str,
      process_status_packet (3 :: rest) = [RoseRequest.reload_theme]) ∧
    (∀ (t : Nat) (rest : Str), t = 0 ∨ (4 ≤ t ∧ t < 8) →
      process_status_packet (t :: rest) = process_status_packet (rest.drop 4)) ∧
    (∀ (t : Nat) (rest : Str), t = 1 ∨ t = 2 →
      process_status_packet (t :: rest) = process_status_packet rest) ∧
    (∀ (t : Nat) (rest : Str), 8 ≤ t →
      process_status_packet (t :: rest) = []) ∧
    (∀ p : Str, (process_status_packet p).length ≤ 1 ∧
      ∀ e ∈ process_status_packet p, e = RoseRequest.reload_theme) := by
  refine ⟨?_, ?_, ?_, ?_, ?_⟩
  · intro rest
    rw [process_status_packet]
    rw [dif_pos (by omega), if_pos rfl]
  · intro t rest ht
    have hsz : status_sizes.getD t 0 = 5 := by
      rcases ht with rfl | ⟨h4, h8⟩
      · rfl
      · interval_cases t <;> rfl
    have ht8 : t < 8 := by rcases ht with rfl | ⟨_, h8⟩ <;> omega
    have ht3 : t ≠ 3 := by rcases ht with rfl | ⟨h4, _⟩ <;> omega
    rw [process_status_packet]
    rw [dif_pos ht8, if_neg ht3, hsz, drop_min_cons]
  · intro t rest ht
    have hsz : status_sizes.getD t 0 = 1 := by
      rcases ht with rfl | rfl <;> rfl
    have ht8 : t < 8 := by rcases ht with rfl | rfl <;> omega
    have ht3 : t ≠ 3 := by rcases ht with rfl | rfl <;> omega
    rw [process_status_packet]
    rw [dif_pos ht8, if_neg ht3, hsz, drop_min_cons]
    simp
  · intro t rest ht
    rw [process_status_packet]
    rw [dif_neg (by omega)]
  · have main : ∀ (n : Nat) (p : Str), p.length ≤ n →
        (process_status_packet p).length ≤ 1 ∧
          ∀ e ∈ process_status_packet p, e = RoseRequest.reload_theme := by
      intro n
      induction n with
      | zero =>
          intro p hp
          have : p = [] := List.length_eq_zero.mp (by omega)
          subst this
          simp [process_status_packet]
      | succ n ih =>
          intro p hp
          cases p with
          | nil =>
              rw [process_status_packet]
              simp
          | cons t rest =>
              rw [process_status_packet]
              by_cases ht8 : t < 8
              · rw [dif_pos ht8]
                by_cases ht3 : t = 3
                · rw [if_pos ht3]
                  simp
                · rw [if_neg ht3]
                  apply ih
                  have hsz := status_sizes_ge_one ht8
                  simp only [List.length_drop, List.length_cons] at hp ⊢
                  have hmin : 1 ≤ min (t :: rest).length (status_sizes.getD t 0) := by
                    simp only [List.length_cons]
                    omega
                  omega
              · rw [dif_neg ht8]
                simp
    intro p
    exact main p.length p (le_refl _)

/-- C7 witness: the status payload `[3, 9, 9]` (theme-changed with trailing
bytes) posts exactly one reload-theme event; payload `[0, 1, 2, 3, 4]` is a
single 5-byte server-state message and posts nothing; payload `[9]` has an
out-of-range type byte and posts nothing. -/
theorem process_status_packet_spec_witness :
    process_status_packet [3, 9, 9] = [RoseRequest.reload_theme] ∧
      process_status_packet [0, 1, 2, 3, 4] = [] ∧
      process_status_packet [9] = [] := by
  refine ⟨process_status_packet_spec.1 [9, 9], ?_, ?_⟩
  · have h := process_status_packet_spec.2.1 0 [1, 2, 3, 4] (Or.inl rfl)
    rw [h]
    rw [show List.drop 4 [1, 2, 3, 4] = ([] : Str) from rfl]
    rw [process_status_packet]
  · exact process_status_packet_spec.2.2.2.1 9 [] (by omega)

/-! ### Dispatch-channel packet processing (`run_dispatcher_client`) -/

/-- The 64-byte command map of the dispatch channel (`command_map` in
`run_dispatcher_client`, `src/ipc.cc` lines 60-66): a `buffer<64>`
brace-initialized with one leading byte is that byte followed by 63 zero
bytes; `command_map.contains` compares whole 64-byte buffers. -/
def dispatch_code (chunk : Str) : Option RoseRequest :=
  if chunk = 0 :: List.replicate 63 0 then some RoseRequest.prompt_normal
  else if chunk = 1 :: List.replicate 63 0 then some RoseRequest.prompt_privileged
  else if chunk = 2 :: List.replicate 63 0 then some RoseRequest.reload_database
  else none

/-- `process_packet` of the dispatch channel (`src/ipc.cc` lines 57-84): as
long as at least 64 bytes remain, copy the next 64-byte chunk, shrink the
packet, and post the chunk's event when the command map contains it; a
trailing fragment shorter than 64 bytes is never examined.  Returns the
posted events in order. -/
def process_dispatch_packet (p : Str) : List RoseRequest :=
  if h : 64 ≤ p.length then
    match dispatch_code (p.take 64) with
    | some r => r :: process_dispatch_packet (p.drop 64)
    | none => process_dispatch_packet (p.drop 64)
  else []
termination_by p.length
decreasing_by
  all_goals simp only [List.length_drop]
  all_goals omega

/-- The consecutive full 64-byte chunks of a packet (specification side):
chunk `i` is bytes `[64 i, 64 i + 64)`; the trailing fragment is not a
chunk. -/
def chunks64 (p : Str) : List Str :=
  (List.range (p.length / 64)).map (fun i => (p.drop (64 * i)).take 64)

theorem chunks64_short {p : Str} (h : p.length < 64) : chunks64 p = [] := by
  unfold chunks64
  rw [Nat.div_eq_of_lt h]
  rfl

theorem chunks64_cons {p : Str} (h : 64 ≤ p.length) :
    chunks64 p = p.take 64 :: chunks64 (p.drop 64) := by
  unfold chunks64
  have hlen : (p.drop 64).length = p.length - 64 := by simp
  have hdiv : p.length / 64 = (p.length - 64) / 64 + 1 :=
    Nat.div_eq_sub_div (by omega) h
  rw [hdiv, hlen, List.range_succ_eq_map]
  simp only [List.map_cons, List.map_map]
  rw [Nat.mul_zero, List.drop_zero]
  congr 1
  apply List.map_congr_left
  intro i _
  simp only [Function.comp_apply]
  rw [List.drop_drop]
  congr 2
  omega

/-- C8: the dispatch channel's inbound packet processing posts, in chunk
order, one show-normal-prompt, show-privileged-prompt, or reload-index event
for each consecutive full 64-byte chunk equal to the byte 0x00, 0x01 or 0x02
followed by 63 zero bytes; every other chunk is ignored, and a trailing
fragment shorter than 64 bytes is ignored. -/
theorem process_dispatch_packet_spec (p : Str) :
    process_dispatch_packet p = (chunks64 p).filterMap dispatch_code := by
  have main : ∀ (n : Nat) (p : Str), p.length ≤ n →
      process_dispatch_packet p = (chunks64 p).filterMap dispatch_code := by
    intro n
    induction n with
    | zero =>
        intro p hp
        have hnil : p = [] := List.length_eq_zero.mp (by omega)
        subst hnil
        rw [process_dispatch_packet]
        rw [chunks64_short (by simp)]
        rfl
    | succ n ih =>
        intro p hp
        by_cases h64 : 64 ≤ p.length
        · rw [process_dispatch_packet, dif_pos h64, chunks64_cons h64,
            List.filterMap_cons]
          have hrec := ih (p.drop 64) (by simp; omega)
          cases hc : dispatch_code (p.take 64) with
          | none => rw [hrec]
          | some r => rw [hrec]
        · rw [process_dispatch_packet, dif_neg h64, chunks64_short (by omega)]
          rfl
  exact main p.length p (le_refl _)
